import Mathlib

/-!
Verification development for the git subsystem of gpm (src/lib/git.js).

The JavaScript source is shallowly embedded.  Strings are Lean `String`s
manipulated through explicit `List Char` operations that mirror the exact
JavaScript semantics (`trim`, `split`, `replace` of the first occurrence,
`includes`, and the default `Array.prototype.sort`, which compares strings
as sequences of UTF-16 code units).  Subprocess interaction is embedded by
making the observable behaviour of the child process an explicit input
(its stdout, exit code, or spawn failure), and the hash algorithm is an
abstract function over byte lists (bytes are `Nat`).  Fallible paths
return `Except`.
-/

namespace Gpm

/-! ### UTF-16 code units and the JavaScript string order -/

/-- UTF-16 code units of a single Unicode scalar value.  JavaScript
strings are sequences of UTF-16 code units and the default
`Array.prototype.sort` comparator compares strings code unit by code
unit. -/

def utf16EncodeChar (n : Nat) : List Nat :=
  if n < 0x10000 then [n]
  else [0xD800 + (n - 0x10000) / 0x400, 0xDC00 + (n - 0x10000) % 0x400]

/-- The UTF-16 code-unit sequence of a string. -/

def utf16Units (s : String) : List Nat :=
  s.data.flatMap (fun c => utf16EncodeChar c.toNat)

/-- JavaScript string comparison `a < b`: lexicographic over UTF-16 code
units (the order used by the default `sort`). -/

def jsLtStr (a b : String) : Bool := decide (utf16Units a < utf16Units b)

/-- The keep-before relation realized by the default ascending `sort`:
the comparator result for `(a, b)` is non-positive. -/

def jsLeStr (a b : String) : Bool := ! jsLtStr b a

/-- A Unicode scalar value: what a `Char` may hold (no surrogates). -/

def ValidScalar (n : Nat) : Prop := n < 0xD800 ∨ (0xDFFF < n ∧ n < 0x110000)

/-- Partial inverse of `utf16EncodeChar` on streams: decode one scalar. -/

def utf16Dec : List Nat → Option (Nat × List Nat)
  | [] => none
  | u :: rest =>
    if 0xD800 ≤ u ∧ u < 0xDC00 then
      match rest with
      | v :: rest2 => some (0x10000 + (u - 0xD800) * 0x400 + (v - 0xDC00), rest2)
      | [] => none
    else some (u, rest)

/-! `jsLeStr` is a decidable total preorder, antisymmetric thanks to the
injectivity of the UTF-16 encoding. -/

/-! ### JavaScript string operations -/

/-- Code points treated as whitespace by JavaScript `String.prototype.trim`
(WhiteSpace and LineTerminator productions). -/

def jsWhitespaceCodes : List Nat :=
  [0x9, 0xA, 0xB, 0xC, 0xD, 0x20, 0xA0, 0x1680, 0x2000, 0x2001, 0x2002, 0x2003,
   0x2004, 0x2005, 0x2006, 0x2007, 0x2008, 0x2009, 0x200A, 0x2028, 0x2029,
   0x202F, 0x205F, 0x3000, 0xFEFF]

def isJsSpace (c : Char) : Bool := jsWhitespaceCodes.contains c.toNat

/-- JavaScript `String.prototype.trim`. -/

def jsTrim (s : String) : String :=
  ⟨((s.data.dropWhile isJsSpace).reverse.dropWhile isJsSpace).reverse⟩

def jsSplitAux (sep : Char) : List Char → List Char → List (List Char)
  | [], acc => [acc.reverse]
  | c :: cs, acc =>
    if c = sep then acc.reverse :: jsSplitAux sep cs []
    else jsSplitAux sep cs (c :: acc)

/-- JavaScript `String.prototype.split` with a single-character separator
and no limit: `""` splits to `[""]`, a trailing separator yields a final
empty piece. -/

def jsSplit (s : String) (sep : Char) : List String :=
  (jsSplitAux sep s.data []).map (fun cs => ⟨cs⟩)

/-- JavaScript `String.prototype.includes` for a literal search string. -/

def jsIncludes (s pat : String) : Bool :=
  s.data.tails.any (fun t => pat.data.isPrefixOf t)

def replaceFirstAux (pat repl : List Char) : List Char → List Char
  | [] => []
  | c :: cs =>
    if pat.isPrefixOf (c :: cs) then repl ++ (c :: cs).drop pat.length
    else c :: replaceFirstAux pat repl cs

/-- JavaScript `String.prototype.replace` with a literal (non-regexp)
search string: only the first occurrence is replaced. -/

def jsReplaceFirst (s pat repl : String) : String :=
  ⟨replaceFirstAux pat.data repl.data s.data⟩

/-- JavaScript `s.indexOf(pre) === 0`, i.e. `pre` occurs at position 0. -/

def jsStartsWith (s pre : String) : Bool := pre.data.isPrefixOf s.data

/-! ### Remote ref reader: `listTags`

`listTags` runs `git ls-remote --tags`, splits the trimmed stdout on
newlines and matches every line against the regular expression
`^([a-f0-9]+)\trefs\/tags\/(.*)$`.  When a line does not match, the
JavaScript code dereferences the `null` match result (`match[1]`) and
throws a `TypeError`; no partial result escapes.  The tag map is a JS
object, embedded as an insertion-ordered association list. -/

deriving instance DecidableEq for Except

inductive JsError where
  /-- Thrown by reading a property of the `null` returned by a failed
  regular-expression match. -/
  | typeError
deriving DecidableEq, Repr

structure TagRecord where
  commit : Option String := none
  annotated : Option String := none
  name : String := ""
deriving DecidableEq, Repr

/-- Characters the regular-expression atom `.` does not match
(LineTerminator: LF, CR, LS, PS); the regexps here have neither the `s`
nor the `m` flag. -/

def isLineTerminator (c : Char) : Bool :=
  c.toNat = 0xA || c.toNat = 0xD || c.toNat = 0x2028 || c.toNat = 0x2029

def isHexLowerDigit (c : Char) : Bool :=
  (('0' ≤ c) && (c ≤ '9')) || (('a' ≤ c) && (c ≤ 'f'))

/-- Model of matching `^([a-f0-9]+)\t<pre>(.*)$` against one line, returning the
two capture groups.  The greedy hex group necessarily stops at the first
non-hex character, which then has to be the tab. -/

def matchRefLine (pre : String) (item : String) : Option (String × String) :=
  let cs := item.data
  let hex := cs.takeWhile isHexLowerDigit
  let rest := cs.drop hex.length
  if hex.isEmpty then none
  else
    match rest with
    | '\t' :: rest2 =>
      if pre.data.isPrefixOf rest2 then
        let name := rest2.drop pre.data.length
        if name.any isLineTerminator then none else some (⟨hex⟩, ⟨name⟩)
      else none
    | _ => none

/-- Update-or-insert on the JS object (an absent key is first bound to
an empty record), preserving insertion order. -/

def setTag (m : List (String × TagRecord)) (tag : String) (f : TagRecord → TagRecord) :
    List (String × TagRecord) :=
  if m.any (fun kv => kv.1 = tag) then
    m.map (fun kv => if kv.1 = tag then (tag, f kv.2) else kv)
  else m ++ [(tag, f {})]

/-- One iteration of the `for (const item of items)` loop of `listTags`. -/

def listTagsStep (m : List (String × TagRecord)) (item : String) :
    Except JsError (List (String × TagRecord)) :=
  match matchRefLine "refs/tags/" item with
  | none => .error .typeError
  | some (hash, tag0) =>
    let annotated := jsIncludes tag0 "^\x7b\x7d"
    let tag := if annotated then jsReplaceFirst tag0 "^\x7b\x7d" "" else tag0
    .ok (setTag m tag (fun r =>
      if annotated then { r with annotated := some hash, name := tag }
      else { r with commit := some hash, name := tag }))

def listTagsAux : List String → List (String × TagRecord) →
    Except JsError (List (String × TagRecord))
  | [], m => .ok m
  | item :: items, m =>
    match listTagsStep m item with
    | .error e => .error e
    | .ok m2 => listTagsAux items m2

/-- Parsing phase of `listTags`, as a function of the stdout produced by
`git ls-remote --tags <remote>`. -/

def listTags (stdout : String) : Except JsError (List (String × TagRecord)) :=
  listTagsAux (jsSplit (jsTrim stdout) '\n') []

/-! ### Version selector: `sortTags` and `matchTag`

The semantic-version comparison is delegated to an external library
(`semver.gt`, `semver.lt`, `semver.satisfies`), so the two comparison
functions and the constraint test are parameters of the embedding.
`Array.prototype.sort` with a consistent comparator is embedded as a
stable sort keeping `a` before `b` exactly when the comparator result
for `(a, b)` is non-positive (when the comparator is inconsistent —
which happens exactly for distinct equal-version names — the JavaScript
result is implementation-defined, and the embedding fixes one stable
algorithm). -/

/-- The comparator passed to `sort`:
`(a, b) => a === b ? 0 : (cmp(a, b) ? 1 : -1)`. -/

def tagComparator (cmp : String → String → Bool) (a b : String) : Int :=
  if a = b then 0 else if cmp a b then 1 else -1

/-- Embedding of `sortTags(tags, desc)`: keep the names with `indexOf('v') === 0`, then
sort them with the comparator built from `desc ? semver.gt : semver.lt`. -/

def sortTags (gt lt : String → String → Bool) (tags : List String) (desc : Bool) :
    List String :=
  let filtered := tags.filter (fun tag => jsStartsWith tag "v")
  let cmp := if desc then gt else lt
  List.insertionSort (fun a b => tagComparator cmp a b ≤ 0) filtered

/-- Embedding of `matchTag(tags, needed)`: walk the default (`desc` absent, hence
falsy) sort, strip the first `'v'` of each candidate, and return the
first tag whose stripped version satisfies the constraint. -/

def matchTag (gt lt satisfies : String → String → Bool) (tags : List String)
    (needed : String) : Option String :=
  (sortTags gt lt tags false).find?
    (fun tag => satisfies (jsReplaceFirst tag "v" "") needed)

/-! ### A concrete semantic-version model

Modelled from the spec: the external version-comparison library
(`semver`) is not part of src/lib/git.js; the spec delegates to it for
"version precedence" ordering and "caret range" constraint satisfaction.
The model parses `[v]MAJOR.MINOR.PATCH[-prerelease]`, compares by the
semantic-versioning precedence rules (numeric fields, then prerelease:
a release outranks any prerelease, numeric identifiers rank below
alphanumeric ones, identifiers compare numerically respectively in ASCII
order, a longer identifier list outranks its prefix), and resolves caret
ranges with the usual prerelease exclusion (a prerelease version only
matches when the range's base carries a prerelease on the same triple). -/

structure SemVersion where
  major : Nat
  minor : Nat
  patch : Nat
  pre : List String
deriving DecidableEq, Repr

def isDigitChar (c : Char) : Bool := ('0' ≤ c) && (c ≤ '9')

def digitsToNat (cs : List Char) : Nat :=
  cs.foldl (fun a c => a * 10 + (c.toNat - 48)) 0

def isNumericIdent (s : String) : Bool := (s ≠ "") && s.data.all isDigitChar

def parseVersion (s : String) : Option SemVersion :=
  let s := if jsStartsWith s "v" then ⟨s.data.drop 1⟩ else s
  let (main, pre) :=
    match jsSplit s '-' with
    | [m] => (m, ([] : List String))
    | m :: rest => (m, jsSplit (⟨(String.intercalate "-" rest).data⟩) '.')
    | [] => (("" : String), [])
  match jsSplit main '.' with
  | [a, b, c] =>
    if isNumericIdent a && isNumericIdent b && isNumericIdent c
        && pre.all (fun p => p ≠ "") then
      some ⟨digitsToNat a.data, digitsToNat b.data, digitsToNat c.data, pre⟩
    else none
  | _ => none

/-- Order key of one prerelease identifier (numeric below alphanumeric,
numeric by value, alphanumeric by ASCII; the trailing 0 sentinel is below
every identifier character). -/

def identKey (id : String) : List Nat :=
  if isNumericIdent id then [0, digitsToNat id.data]
  else 1 :: (id.data.map Char.toNat ++ [0])

def preKey : List String → List Nat
  | [] => [1]
  | ids => 0 :: ids.flatMap identKey

def versionKey (v : SemVersion) : List Nat :=
  [v.major, v.minor, v.patch] ++ preKey v.pre

/-- Total precedence key over arbitrary strings; unparseable strings sit
below every parseable version (the real library raises there, which no
claim exercises). -/

def semverKey (s : String) : List Nat :=
  match parseVersion s with
  | some v => versionKey v
  | none => []

def semverLtModel (a b : String) : Bool := decide (semverKey a < semverKey b)

def semverGtModel (a b : String) : Bool := semverLtModel b a

/-- Modelled from the spec: caret-range satisfaction of the external
library, `satisfies(version, "^base")`. -/

def caretSatisfies (version range : String) : Bool :=
  if jsStartsWith range "^" then
    match parseVersion ⟨range.data.drop 1⟩, parseVersion version with
    | some base, some v =>
      let upper : SemVersion :=
        if 0 < base.major then ⟨base.major + 1, 0, 0, []⟩
        else if 0 < base.minor then ⟨0, base.minor + 1, 0, []⟩
        else ⟨0, 0, base.patch + 1, []⟩
      let preOk : Bool :=
        decide (v.pre = []) ||
          (decide (v.major = base.major) && decide (v.minor = base.minor) &&
           decide (v.patch = base.patch) && decide (base.pre ≠ []))
      (! decide (versionKey v < versionKey base)) &&
        decide (versionKey v < versionKey upper) && preOk
    | _, _ => false
  else false

/-! ### Trust verifier: `verifyRepo`

`verifyRepo` spawns `git verify-tag <tag>` (or `git verify-commit
<commit>` when `tag` is falsy) and settles a promise from the first
subprocess event: an `error` event (spawn failure) rejects with the
spawn error itself; a `close` event resolves when the exit code is 0 and
otherwise rejects with `new Error('Could not verify signature.')`.  The
`stdio` argument only selects the child's stream handling and plays no
part in the settlement. -/

/-- The first settling subprocess event observed by `verifyRepo`. -/

inductive SpawnOutcome where
  /-- An `error` event, carrying the spawn error (e.g. ENOENT). -/
  | spawnError (err : String)
  /-- A `close` event, carrying the exit code. -/
  | close (code : Int)
deriving DecidableEq, Repr

/-- Argument selection of `verifyRepo`: `verify-tag` unless `tag` is
falsy (`null`, `undefined` or the empty string), else `verify-commit`. -/

def verifyArgs (tag : Option String) (commit : String) : List String :=
  match tag with
  | some t => if t = "" then ["verify-commit", commit] else ["verify-tag", t]
  | none => ["verify-commit", commit]

/-- Settlement of the `verifyRepo` promise as a function of the first
subprocess event.  Errors are embedded by their message. -/

def verifyRepo (tag : Option String) (commit : String) (outcome : SpawnOutcome) :
    Except String Unit :=
  match outcome with
  | .spawnError err => .error err
  | .close code => if code = 0 then .ok () else .error "Could not verify signature."

/-! ### Repository fetcher: `cloneRepo` -/

structure ExecSuccess where
  stdout : String
  stderr : String
deriving DecidableEq, Repr

/-- Rejection of a promisified `child_process.exec`: the error carries
the child's exit code and its captured stderr. -/

structure ExecFailure where
  code : Int
  stderr : String
deriving DecidableEq, Repr

/-- An external `exec` behaviour: from the command line and the current
contents of the destination path (`none` when the path is absent) to the
new contents and the settlement. -/

def Exec : Type :=
  String → Option (List String) → Option (List String) × Except ExecFailure ExecSuccess

def cloneCmd (tag git dst : String) : String :=
  "git clone --depth 1 --branch " ++ tag ++ " " ++ git ++ " " ++ dst

/-- Embedding of `cloneRepo`: build the command line and return the awaited `exec`
settlement unchanged (`return await exec(cmd)`). -/

def cloneRepo (exec : Exec) (tag git dst : String) (dest : Option (List String)) :
    Option (List String) × Except ExecFailure ExecSuccess :=
  exec (cloneCmd tag git dst) dest

/-- Modelled from the spec: the behaviour of the external `git clone`
subprocess, which is not part of src/lib/git.js.  Cloning into an
existing non-empty destination is refused: the child exits with a
non-zero status, the conflict is reported on the captured error stream,
and the destination contents are left unchanged. -/

def GitCloneSpec (exec : Exec) : Prop :=
  ∀ cmd files, files ≠ [] →
    ∃ code stderr, code ≠ 0 ∧
      exec cmd (some files) = (some files, .error ⟨code, stderr⟩)

/-! ### Content digest engine: `listTree`, `checksum`, `treeHash`

The hash algorithm is an abstract function from byte sequences to byte
sequences; a `crypto` hash context is its fed byte stream.  `listTree`
is embedded as a function of the stdout of the tracked-file enumeration
subprocess (`git ls-tree --full-tree -r --name-only HEAD`); on the
success path the source resolves `stdout.trim().split('\n').sort()`,
the default ascending UTF-16 sort.  The checkout is a map from relative
path to file content (`path.join(base, filename)` addresses the file of
relative path `filename`). -/

/-- A hash algorithm (e.g. sha512): bytes to digest bytes. -/

def Algo : Type := List Nat → List Nat

structure HashCtx where
  fed : List Nat
deriving DecidableEq, Repr

/-- Model of `ctx.update(buf)`: feed bytes into the running context. -/

def HashCtx.update (ctx : HashCtx) (bs : List Nat) : HashCtx := ⟨ctx.fed ++ bs⟩

/-- Model of `ctx.digest()`: the digest of everything fed so far. -/

def HashCtx.digest (algo : Algo) (ctx : HashCtx) : List Nat := algo ctx.fed

/-- Embedding of `checksum(file, algo)`: the file's bytes are streamed through the
hash, so the resolved digest is the digest of the full content. -/

def checksum (algo : Algo) (content : List Nat) : List Nat := algo content

/-- Success path of `listTree`: `stdout.trim().split('\n').sort()`. -/

def listTree (stdout : String) : List String :=
  List.insertionSort (fun a b => jsLeStr a b = true) (jsSplit (jsTrim stdout) '\n')

/-- UTF-8 encoding of a single Unicode scalar value (`Buffer.from(str,
'utf8')`). -/

def utf8EncodeChar (n : Nat) : List Nat :=
  if n < 0x80 then [n]
  else if n < 0x800 then [0xC0 + n / 0x40, 0x80 + n % 0x40]
  else if n < 0x10000 then [0xE0 + n / 0x1000, 0x80 + n / 0x40 % 0x40, 0x80 + n % 0x40]
  else [0xF0 + n / 0x40000, 0x80 + n / 0x1000 % 0x40, 0x80 + n / 0x40 % 0x40, 0x80 + n % 0x40]

def utf8Bytes (s : String) : List Nat :=
  s.data.flatMap (fun c => utf8EncodeChar c.toNat)

def hexDigitCode (n : Nat) : Nat := if n < 10 then 48 + n else 87 + n

def hexChar (n : Nat) : Char := Char.ofNat (hexDigitCode n)

/-- Model of `buf.toString('hex')`: each byte as two lowercase hexadecimal
digits, high nibble first, no separators. -/

def bytesToHex (bs : List Nat) : String :=
  ⟨bs.flatMap (fun b => [hexChar (b / 16), hexChar (b % 16)])⟩

/-- The body of the `while (files.length > 0)` loop of `treeHash`: shift
the next filename, checksum the file, and feed the two buffers
`Buffer.from(digest.toString('hex'), 'utf8')` and
`Buffer.from(`  ${filename}\n`, 'utf8')` into the context. -/

def treeHashLoop (algo : Algo) (fs : String → List Nat) :
    List String → HashCtx → HashCtx
  | [], ctx => ctx
  | filename :: files, ctx =>
    let digest := checksum algo (fs filename)
    let ctx1 := ctx.update (utf8Bytes (bytesToHex digest))
    let ctx2 := ctx1.update (utf8Bytes ("  " ++ filename ++ "\n"))
    treeHashLoop algo fs files ctx2

/-- Embedding of `treeHash(dst, base, algo)` as a function of the enumeration stdout
and the checkout contents. -/

def treeHash (algo : Algo) (fs : String → List Nat) (stdout : String) : List Nat :=
  HashCtx.digest algo (treeHashLoop algo fs (listTree stdout) ⟨[]⟩)

/-- The manifest line of one file, exactly as fed into the context. -/

def manifestLine (algo : Algo) (fs : String → List Nat) (filename : String) : String :=
  bytesToHex (checksum algo (fs filename)) ++ "  " ++ filename ++ "\n"

/-- The full byte stream fed into the tree-hash context. -/

def manifestBytes (algo : Algo) (fs : String → List Nat) (stdout : String) : List Nat :=
  (listTree stdout).flatMap (fun filename => utf8Bytes (manifestLine algo fs filename))

/-! ### Injectivity of the byte-level manifest encoding -/

/-- Decode one scalar from a UTF-8 byte stream (partial inverse of
`utf8EncodeChar`). -/

def utf8Dec : List Nat → Option (Nat × List Nat)
  | [] => none
  | b :: rest =>
    if b < 0x80 then some (b, rest)
    else if b < 0xE0 then
      match rest with
      | c1 :: r => some ((b - 0xC0) * 0x40 + (c1 - 0x80), r)
      | [] => none
    else if b < 0xF0 then
      match rest with
      | c1 :: c2 :: r => some ((b - 0xE0) * 0x1000 + (c1 - 0x80) * 0x40 + (c2 - 0x80), r)
      | _ => none
    else
      match rest with
      | c1 :: c2 :: c3 :: r =>
        some ((b - 0xF0) * 0x40000 + (c1 - 0x80) * 0x1000 + (c2 - 0x80) * 0x40 + (c3 - 0x80), r)
      | _ => none

/-! The hexadecimal rendering, at byte level. -/

def hexPairEnc (b : Nat) : List Nat := [hexDigitCode (b / 16), hexDigitCode (b % 16)]

def hexDec : List Nat → Option (Nat × List Nat)
  | x :: y :: r =>
    some ((if x < 58 then x - 48 else x - 87) * 16 + (if y < 58 then y - 48 else y - 87), r)
  | _ => none

/-! ### Concrete instances used to exercise the theorems -/

/-- An `exec` behaviour realizing the spec-modelled `git clone` contract:
a non-empty destination is refused with exit status 128 and a conflict
message, anything else succeeds. -/
def execDenyModel : Exec := fun _cmd dest =>
  match dest with
  | some (f :: fs) =>
    (some (f :: fs),
     .error ⟨128, "fatal: destination path already exists and is not an empty directory."⟩)
  | some [] => (some [], .ok ⟨"", ""⟩)
  | none => (none, .ok ⟨"", ""⟩)

/-- A toy one-byte hash algorithm (sum of the bytes modulo 256), used
only to instantiate abstract-algorithm theorems on concrete inputs. -/
def sumAlgo : Algo := fun l => [l.foldl (fun a b => a + b) 0 % 256]

/-- A checkout whose every file holds the single byte 0. -/
def fileZero : String → List Nat := fun _ => [0]

/-- A checkout whose every file holds the single byte 1. -/
def fileOne : String → List Nat := fun _ => [1]

/-! ### Library lemmas about the embedding -/

theorem utf16Dec_encode (n : Nat) (rest : List Nat) (h : ValidScalar n) :
    utf16Dec (utf16EncodeChar n ++ rest) = some (n, rest) := by
  unfold ValidScalar at h
  unfold utf16EncodeChar
  by_cases h1 : n < 0x10000
  · have hc : ¬ (0xD800 ≤ n ∧ n < 0xDC00) := by omega
    simp [h1, utf16Dec, hc]
  · have hq : (n - 0x10000) / 0x400 < 0x400 := by omega
    have hcond : 0xD800 ≤ 0xD800 + (n - 0x10000) / 0x400 ∧
        0xD800 + (n - 0x10000) / 0x400 < 0xDC00 := by omega
    simp [h1, utf16Dec, hcond]
    omega

theorem utf16EncodeChar_ne_nil (n : Nat) : utf16EncodeChar n ≠ [] := by
  unfold utf16EncodeChar
  split <;> simp

/-- Generic injectivity of a self-delimiting per-element encoding,
flat-mapped over a list of elements from the valid domain. -/

theorem encFlatMapInj {enc : Nat → List Nat} {dec : List Nat → Option (Nat × List Nat)}
    {P : Nat → Prop}
    (hdec : ∀ n rest, P n → dec (enc n ++ rest) = some (n, rest))
    (hne : ∀ n, P n → enc n ≠ []) :
    ∀ l1 l2 : List Nat, (∀ n ∈ l1, P n) → (∀ n ∈ l2, P n) →
      l1.flatMap enc = l2.flatMap enc → l1 = l2 := by
  intro l1
  induction l1 with
  | nil =>
    intro l2 _ h2 he
    cases l2 with
    | nil => rfl
    | cons b bs =>
      exfalso
      simp only [List.flatMap_nil, List.flatMap_cons] at he
      have hb : enc b = [] := by
        rcases List.append_eq_nil.mp he.symm with ⟨hb, _⟩
        exact hb
      exact hne b (h2 b (by simp)) hb
  | cons a as ih =>
    intro l2 h1 h2 he
    cases l2 with
    | nil =>
      exfalso
      simp only [List.flatMap_nil, List.flatMap_cons] at he
      have ha : enc a = [] := by
        rcases List.append_eq_nil.mp he with ⟨ha, _⟩
        exact ha
      exact hne a (h1 a (by simp)) ha
    | cons b bs =>
      simp only [List.flatMap_cons] at he
      have hda := hdec a (as.flatMap enc) (h1 a (by simp))
      have hdb := hdec b (bs.flatMap enc) (h2 b (by simp))
      rw [he] at hda
      rw [hdb] at hda
      have hab : b = a ∧ bs.flatMap enc = as.flatMap enc := by
        have hp := Option.some.inj hda
        exact ⟨congrArg Prod.fst hp, congrArg Prod.snd hp⟩
      rcases hab with ⟨hb, hrest⟩
      subst hb
      have : as = bs := ih bs (fun n hn => h1 n (by simp [hn])) (fun n hn => h2 n (by simp [hn])) hrest.symm
      rw [this]

theorem char_toNat_valid (c : Char) : ValidScalar c.toNat := by
  rcases c.valid with h | h
  · exact Or.inl h
  · exact Or.inr h

theorem utf16Units_inj {a b : String} (h : utf16Units a = utf16Units b) : a = b := by
  unfold utf16Units at h
  have ha : a.data.flatMap (fun c => utf16EncodeChar c.toNat)
      = (a.data.map Char.toNat).flatMap utf16EncodeChar := by
    rw [List.flatMap_map]
  have hb : b.data.flatMap (fun c => utf16EncodeChar c.toNat)
      = (b.data.map Char.toNat).flatMap utf16EncodeChar := by
    rw [List.flatMap_map]
  rw [ha, hb] at h
  have hmaps : a.data.map Char.toNat = b.data.map Char.toNat := by
    refine encFlatMapInj (P := ValidScalar) utf16Dec_encode
      (fun n hn => utf16EncodeChar_ne_nil n) _ _ ?_ ?_ h
    · intro n hn
      rcases List.mem_map.mp hn with ⟨c, _, hc⟩
      exact hc ▸ char_toNat_valid c
    · intro n hn
      rcases List.mem_map.mp hn with ⟨c, _, hc⟩
      exact hc ▸ char_toNat_valid c
  have hdata : a.data = b.data := by
    apply List.map_injective_iff.mpr _ hmaps
    intro c d hcd
    exact Char.ext (UInt32.ext_iff.mpr hcd)
  cases a
  cases b
  simp only at hdata
  rw [hdata]

theorem jsLeStr_trans {a b c : String} (h1 : jsLeStr a b = true) (h2 : jsLeStr b c = true) :
    jsLeStr a c = true := by
  unfold jsLeStr jsLtStr at h1 h2 ⊢
  simp only [Bool.not_eq_true', decide_eq_false_iff_not, not_lt] at h1 h2
  simp only [Bool.not_eq_true', decide_eq_false_iff_not, not_lt]
  exact le_trans h1 h2

theorem jsLeStr_total (a b : String) : (jsLeStr a b || jsLeStr b a) = true := by
  unfold jsLeStr jsLtStr
  rcases le_total (utf16Units a) (utf16Units b) with h | h
  · simp [not_lt.mpr h]
  · simp [not_lt.mpr h]

theorem jsLeStr_antisymm {a b : String} (h1 : jsLeStr a b = true) (h2 : jsLeStr b a = true) :
    a = b := by
  unfold jsLeStr jsLtStr at h1 h2
  simp only [Bool.not_eq_true', decide_eq_false_iff_not, not_lt] at h1 h2
  exact utf16Units_inj (le_antisymm h1 h2)

theorem utf8Dec_encode (n : Nat) (rest : List Nat) (h : n < 0x110000) :
    utf8Dec (utf8EncodeChar n ++ rest) = some (n, rest) := by
  unfold utf8EncodeChar
  by_cases h1 : n < 0x80
  · simp [h1, utf8Dec]
  · by_cases h2 : n < 0x800
    · have hb : ¬ (0xC0 + n / 0x40 < 0x80) ∧ 0xC0 + n / 0x40 < 0xE0 := by omega
      simp [h1, h2, utf8Dec, hb.1, hb.2]
      omega
    · by_cases h3 : n < 0x10000
      · have hb : ¬ (0xE0 + n / 0x1000 < 0x80) ∧ ¬ (0xE0 + n / 0x1000 < 0xE0) ∧
            0xE0 + n / 0x1000 < 0xF0 := by omega
        simp [h1, h2, h3, utf8Dec, hb.1, hb.2.1, hb.2.2]
        omega
      · have hb : ¬ (0xF0 + n / 0x40000 < 0x80) ∧ ¬ (0xF0 + n / 0x40000 < 0xE0) ∧
            ¬ (0xF0 + n / 0x40000 < 0xF0) := by omega
        simp [h1, h2, h3, utf8Dec, hb.1, hb.2.1, hb.2.2]
        omega

theorem utf8EncodeChar_ne_nil (n : Nat) : utf8EncodeChar n ≠ [] := by
  unfold utf8EncodeChar
  split
  · simp
  · split
    · simp
    · split <;> simp

theorem utf8Bytes_inj {a b : String} (h : utf8Bytes a = utf8Bytes b) : a = b := by
  unfold utf8Bytes at h
  rw [show a.data.flatMap (fun c => utf8EncodeChar c.toNat)
      = (a.data.map Char.toNat).flatMap utf8EncodeChar from (List.flatMap_map _ _ _).symm,
    show b.data.flatMap (fun c => utf8EncodeChar c.toNat)
      = (b.data.map Char.toNat).flatMap utf8EncodeChar from (List.flatMap_map _ _ _).symm] at h
  have hmaps : a.data.map Char.toNat = b.data.map Char.toNat := by
    refine encFlatMapInj (P := fun n => n < 0x110000) utf8Dec_encode
      (fun n hn => utf8EncodeChar_ne_nil n) _ _ ?_ ?_ h
    · intro n hn
      rcases List.mem_map.mp hn with ⟨c, _, hc⟩
      rcases char_toNat_valid c with hv | hv <;> omega
    · intro n hn
      rcases List.mem_map.mp hn with ⟨c, _, hc⟩
      rcases char_toNat_valid c with hv | hv <;> omega
  have hdata : a.data = b.data := by
    apply List.map_injective_iff.mpr _ hmaps
    intro c d hcd
    exact Char.ext (UInt32.ext_iff.mpr hcd)
  cases a
  cases b
  simp only at hdata
  rw [hdata]

theorem utf8Bytes_append (a b : String) :
    utf8Bytes (a ++ b) = utf8Bytes a ++ utf8Bytes b := by
  unfold utf8Bytes
  rw [String.data_append, List.flatMap_append]

/-- A newline byte in the UTF-8 encoding of a scalar can only come from
the newline character itself. -/

theorem utf8EncodeChar_mem_newline {n : Nat} (h : (10 : Nat) ∈ utf8EncodeChar n) :
    n = 10 := by
  unfold utf8EncodeChar at h
  by_cases h1 : n < 0x80
  · simp [h1] at h
    omega
  · by_cases h2 : n < 0x800
    · simp [h1, h2] at h
      omega
    · by_cases h3 : n < 0x10000
      · simp [h1, h2, h3] at h
        omega
      · simp [h1, h2, h3] at h
        omega

theorem utf8Bytes_no_newline {s : String} (hs : ∀ c ∈ s.data, c ≠ '\n') :
    (10 : Nat) ∉ utf8Bytes s := by
  unfold utf8Bytes
  intro hmem
  rcases List.mem_flatMap.mp hmem with ⟨c, hc, hin⟩
  have : c.toNat = 10 := utf8EncodeChar_mem_newline hin
  have : c = '\n' := Char.ext (UInt32.ext_iff.mpr this)
  exact hs c hc this

theorem hexDec_encode (b : Nat) (rest : List Nat) (h : b < 256) :
    hexDec (hexPairEnc b ++ rest) = some (b, rest) := by
  have hq : b / 16 < 16 := by omega
  unfold hexPairEnc hexDigitCode hexDec
  simp only [List.cons_append, List.nil_append, Option.some.injEq, Prod.mk.injEq,
    and_true]
  split_ifs <;> omega

theorem hexPairEnc_ne_nil (b : Nat) : hexPairEnc b ≠ [] := by
  unfold hexPairEnc
  simp

theorem hexChar_toNat (k : Nat) (h : k < 16) : (hexChar k).toNat = hexDigitCode k := by
  interval_cases k <;> decide

/-- For genuine bytes, the UTF-8 bytes of the hexadecimal string are the
per-byte pairs of hex digit codes. -/

theorem utf8Bytes_bytesToHex (bs : List Nat) (h : ∀ b ∈ bs, b < 256) :
    utf8Bytes (bytesToHex bs) = bs.flatMap hexPairEnc := by
  unfold utf8Bytes bytesToHex
  induction bs with
  | nil => simp
  | cons b rest ih =>
    have hb : b < 256 := h b (by simp)
    have hbq : b / 16 < 16 := by omega
    have hbr : b % 16 < 16 := by omega
    have e1 : (hexChar (b / 16)).toNat = hexDigitCode (b / 16) := hexChar_toNat _ hbq
    have e2 : (hexChar (b % 16)).toNat = hexDigitCode (b % 16) := hexChar_toNat _ hbr
    have hlt1 : hexDigitCode (b / 16) < 0x80 := by
      unfold hexDigitCode
      split <;> omega
    have hlt2 : hexDigitCode (b % 16) < 0x80 := by
      unfold hexDigitCode
      split <;> omega
    have hcode1 : utf8EncodeChar (hexChar (b / 16)).toNat = [hexDigitCode (b / 16)] := by
      rw [e1]
      unfold utf8EncodeChar
      rw [if_pos hlt1]
    have hcode2 : utf8EncodeChar (hexChar (b % 16)).toNat = [hexDigitCode (b % 16)] := by
      rw [e2]
      unfold utf8EncodeChar
      rw [if_pos hlt2]
    simp only [List.flatMap_cons, List.cons_append, List.nil_append,
      List.flatMap_cons, List.flatMap_nil, List.append_nil] at ih ⊢
    rw [hcode1, hcode2]
    rw [ih (fun x hx => h x (by simp [hx]))]
    rfl

/-- Hex codes are never the newline byte. -/

theorem hexDigitCode_ne_newline (k : Nat) : hexDigitCode k ≠ 10 := by
  unfold hexDigitCode
  split <;> omega

/-! Helper lemmas for the ref reader. -/

theorem listTagsAux_error_iff (items : List String) (m : List (String × TagRecord)) :
    listTagsAux items m = .error .typeError ↔
      ∃ item ∈ items, matchRefLine "refs/tags/" item = none := by
  induction items generalizing m with
  | nil => simp [listTagsAux]
  | cons item items ih =>
    cases hm : matchRefLine "refs/tags/" item with
    | none =>
      simp only [listTagsAux, listTagsStep, hm]
      simp [hm]
    | some pr =>
      cases pr with
      | mk hash tag0 =>
        simp only [listTagsAux, listTagsStep, hm]
        rw [ih]
        constructor
        · rintro ⟨it, hin, hnone⟩
          exact ⟨it, by simp [hin], hnone⟩
        · rintro ⟨it, hin, hnone⟩
          rcases List.mem_cons.mp hin with rfl | hin2
          · rw [hm] at hnone
            cases hnone
          · exact ⟨it, hin2, hnone⟩

theorem setTag_keys (m : List (String × TagRecord)) (tag : String)
    (f : TagRecord → TagRecord) (h : (m.map Prod.fst).Nodup) :
    ((setTag m tag f).map Prod.fst).Nodup := by
  unfold setTag
  by_cases hmem : m.any (fun kv => kv.1 = tag)
  · rw [if_pos hmem]
    have : (m.map (fun kv => if kv.1 = tag then (tag, f kv.2) else kv)).map Prod.fst
        = m.map Prod.fst := by
      rw [List.map_map]
      apply List.map_congr_left
      intro kv _
      by_cases hk : kv.1 = tag
      · simp [hk]
      · simp [hk]
    rw [this]
    exact h
  · rw [if_neg hmem]
    rw [List.map_append]
    refine List.Nodup.append h (by simp) ?_
    intro k hk hk2
    simp only [List.map_cons, List.map_nil, List.mem_singleton] at hk2
    subst hk2
    rcases List.mem_map.mp hk with ⟨kv, hkv, hfst⟩
    rw [List.any_eq_true] at hmem
    exact hmem ⟨kv, hkv, by simp [hfst]⟩

theorem listTagsAux_keys (items : List String) (m m2 : List (String × TagRecord))
    (h : (m.map Prod.fst).Nodup) (hok : listTagsAux items m = .ok m2) :
    (m2.map Prod.fst).Nodup := by
  induction items generalizing m with
  | nil =>
    simp only [listTagsAux] at hok
    cases hok
    exact h
  | cons item items ih =>
    simp only [listTagsAux] at hok
    cases hstep : listTagsStep m item with
    | error e => rw [hstep] at hok; cases hok
    | ok m1 =>
      rw [hstep] at hok
      refine ih m1 ?_ hok
      unfold listTagsStep at hstep
      cases hm : matchRefLine "refs/tags/" item with
      | none => rw [hm] at hstep; cases hstep
      | some pr =>
        cases pr with
        | mk hash tag0 =>
          rw [hm] at hstep
          simp only at hstep
          cases hstep
          exact setTag_keys _ _ _ h

/-! Helper lemmas for the version selector. -/

theorem tagComparator_le_iff (cmp : String → String → Bool) (a b : String) :
    tagComparator cmp a b ≤ 0 ↔ (a = b ∨ cmp a b = false) := by
  unfold tagComparator
  by_cases hab : a = b
  · simp [hab]
  · by_cases hc : cmp a b
    · simp [hab, hc]
    · simp [hab, hc]

theorem sortTags_perm (gt lt : String → String → Bool) (tags : List String) (desc : Bool) :
    (sortTags gt lt tags desc).Perm (tags.filter (fun t => jsStartsWith t "v")) := by
  unfold sortTags
  exact List.perm_insertionSort _ _

theorem insertionSort_pairwise (cmp : String → String → Bool)
    (hA : ∀ a b, cmp a b = true → cmp b a = false)
    (hN : ∀ a b c, cmp a b = false → cmp b c = false → cmp a c = false)
    (l : List String) :
    (List.insertionSort (fun a b => tagComparator cmp a b ≤ 0) l).Pairwise
      (fun a b => a = b ∨ cmp a b = false) := by
  haveI hTot : IsTotal String (fun a b => tagComparator cmp a b ≤ 0) := by
    constructor
    intro a b
    rw [tagComparator_le_iff, tagComparator_le_iff]
    by_cases hab : a = b
    · exact Or.inl (Or.inl hab)
    · by_cases hc : cmp a b
      · exact Or.inr (Or.inr (hA a b hc))
      · exact Or.inl (Or.inr (by simpa using hc))
  haveI hTrans : IsTrans String (fun a b => tagComparator cmp a b ≤ 0) := by
    constructor
    intro a b c hab hbc
    rw [tagComparator_le_iff] at hab hbc ⊢
    rcases hab with rfl | hab
    · exact hbc
    · rcases hbc with rfl | hbc
      · exact Or.inr hab
      · exact Or.inr (hN a b c hab hbc)
  have hs := List.sorted_insertionSort (fun a b => tagComparator cmp a b ≤ 0) l
  exact List.Pairwise.imp (fun h => (tagComparator_le_iff cmp _ _).mp h) hs

theorem cmp_irrefl (cmp : String → String → Bool)
    (hA : ∀ a b, cmp a b = true → cmp b a = false) (a : String) : cmp a a = false := by
  cases h : cmp a a with
  | true => exact absurd (hA a a h) (by simp [h])
  | false => rfl

/-- The first element accepted by `find?` relates, under any `Pairwise`
invariant of the list, to every accepted element. -/
theorem find?_first {α : Type} {p : α → Bool} {l : List α} {t : α}
    (h : l.find? p = some t) (R : α → α → Prop) (hpair : l.Pairwise R) :
    ∀ u ∈ l, p u = true → t = u ∨ R t u := by
  induction l with
  | nil => cases h
  | cons x xs ih =>
    rw [List.find?_cons] at h
    rcases List.pairwise_cons.mp hpair with ⟨hx, hxs⟩
    cases hpx : p x with
    | true =>
      rw [hpx] at h
      have ht : t = x := (Option.some.inj h).symm
      subst ht
      intro u hu hp
      rcases List.mem_cons.mp hu with rfl | hu2
      · exact Or.inl rfl
      · exact Or.inr (hx u hu2)
    | false =>
      rw [hpx] at h
      intro u hu hp
      rcases List.mem_cons.mp hu with rfl | hu2
      · rw [hpx] at hp
        cases hp
      · exact ih h hxs u hu2 hp

/-! Helper lemmas for the content digest engine. -/

theorem treeHashLoop_fed (algo : Algo) (fs : String → List Nat) :
    ∀ (files : List String) (ctx : HashCtx),
    (treeHashLoop algo fs files ctx).fed
      = ctx.fed ++ files.flatMap (fun f => utf8Bytes (manifestLine algo fs f)) := by
  intro files
  induction files with
  | nil =>
    intro ctx
    simp [treeHashLoop]
  | cons f files ih =>
    intro ctx
    simp only [treeHashLoop, HashCtx.update]
    rw [ih]
    simp [manifestLine, utf8Bytes_append, List.append_assoc]

theorem jsSplitAux_no_sep (sep : Char) :
    ∀ (cs acc : List Char), (∀ c ∈ acc, c ≠ sep) →
    ∀ piece ∈ jsSplitAux sep cs acc, ∀ c ∈ piece, c ≠ sep := by
  intro cs
  induction cs with
  | nil =>
    intro acc hacc piece hp c hc
    simp only [jsSplitAux, List.mem_singleton] at hp
    subst hp
    exact hacc c (List.mem_reverse.mp hc)
  | cons x xs ih =>
    intro acc hacc piece hp c hc
    by_cases hx : x = sep
    · rw [jsSplitAux, if_pos hx] at hp
      rcases List.mem_cons.mp hp with rfl | hp2
      · exact hacc c (List.mem_reverse.mp hc)
      · exact ih [] (by simp) piece hp2 c hc
    · rw [jsSplitAux, if_neg hx] at hp
      refine ih (x :: acc) ?_ piece hp c hc
      intro c2 hc2
      rcases List.mem_cons.mp hc2 with rfl | h2
      · exact hx
      · exact hacc _ h2

theorem jsSplit_no_sep (s : String) (sep : Char) :
    ∀ p ∈ jsSplit s sep, ∀ c ∈ p.data, c ≠ sep := by
  intro p hp c hc
  unfold jsSplit at hp
  rcases List.mem_map.mp hp with ⟨cs, hcs, hmk⟩
  subst hmk
  exact jsSplitAux_no_sep sep s.data [] (by simp) cs hcs c hc

theorem listTree_mem {stdout : String} {p : String} (hp : p ∈ listTree stdout) :
    p ∈ jsSplit (jsTrim stdout) '\n' :=
  (List.perm_insertionSort _ _).subset hp

theorem listTree_no_newline (stdout : String) :
    ∀ p ∈ listTree stdout, ∀ c ∈ p.data, c ≠ '\n' :=
  fun p hp => jsSplit_no_sep _ _ p (listTree_mem hp)

theorem listTree_sorted (stdout : String) :
    (listTree stdout).Sorted (fun a b => jsLeStr a b = true) := by
  unfold listTree
  haveI : IsTotal String (fun a b => jsLeStr a b = true) := by
    constructor
    intro a b
    have htot := jsLeStr_total a b
    simp only [Bool.or_eq_true] at htot
    exact htot
  haveI : IsTrans String (fun a b => jsLeStr a b = true) := by
    constructor
    intro a b c
    exact jsLeStr_trans
  exact List.sorted_insertionSort _ _

theorem listTree_perm_eq {s1 s2 : String}
    (h : (jsSplit (jsTrim s1) '\n').Perm (jsSplit (jsTrim s2) '\n')) :
    listTree s1 = listTree s2 := by
  haveI : IsAntisymm String (fun a b => jsLeStr a b = true) := by
    constructor
    intro a b
    exact jsLeStr_antisymm
  refine List.eq_of_perm_of_sorted ?_ (listTree_sorted s1) (listTree_sorted s2)
  exact ((List.perm_insertionSort _ _).trans h).trans (List.perm_insertionSort _ _).symm

theorem length_flatMap_hexPairEnc (d : List Nat) :
    (d.flatMap hexPairEnc).length = 2 * d.length := by
  induction d with
  | nil => simp
  | cons b bs ih =>
    simp only [List.flatMap_cons, List.length_append, ih, hexPairEnc,
      List.length_cons, List.length_nil, List.length_cons]
    omega

theorem flatMap_hexPairEnc_inj {d1 d2 : List Nat} (h1 : ∀ b ∈ d1, b < 256)
    (h2 : ∀ b ∈ d2, b < 256) (h : d1.flatMap hexPairEnc = d2.flatMap hexPairEnc) :
    d1 = d2 :=
  encFlatMapInj (P := fun b => b < 256) hexDec_encode
    (fun b hb => hexPairEnc_ne_nil b) d1 d2 h1 h2 h

theorem append_cons_inj {x : Nat} :
    ∀ {a b c d : List Nat}, x ∉ a → x ∉ b → a ++ x :: c = b ++ x :: d →
    a = b ∧ c = d := by
  intro a
  induction a with
  | nil =>
    intro b c d ha hb h
    cases b with
    | nil =>
      simp only [List.nil_append, List.cons.injEq, true_and] at h
      exact ⟨rfl, h⟩
    | cons y ys =>
      simp only [List.nil_append, List.cons_append, List.cons.injEq] at h
      exact absurd (h.1 ▸ List.mem_cons_self y ys) (h.1 ▸ hb)
  | cons z zs ih =>
    intro b c d ha hb h
    cases b with
    | nil =>
      simp only [List.cons_append, List.nil_append, List.cons.injEq] at h
      exact absurd (h.1 ▸ List.mem_cons_self z zs) (by rw [h.1] at ha; exact ha)
    | cons y ys =>
      simp only [List.cons_append, List.cons.injEq] at h
      have hzy := h.1
      subst hzy
      have := ih (fun hx => ha (List.mem_cons_of_mem _ hx))
        (fun hx => hb (List.mem_cons_of_mem _ hx)) h.2
      exact ⟨by rw [this.1], this.2⟩

theorem utf8_line_decomp (d : List Nat) (p : String) (hd : ∀ b ∈ d, b < 256) :
    utf8Bytes (bytesToHex d ++ "  " ++ p ++ "\n")
      = d.flatMap hexPairEnc ++ (32 :: 32 :: (utf8Bytes p ++ [10])) := by
  rw [utf8Bytes_append, utf8Bytes_append, utf8Bytes_append, utf8Bytes_bytesToHex d hd]
  have h2 : utf8Bytes "  " = [32, 32] := by decide
  have h3 : utf8Bytes "\n" = [10] := by decide
  rw [h2, h3]
  simp [List.append_assoc]

/-- Injectivity of the per-file manifest rendering: two lists of
(relative path, content digest) pairs with newline-free paths,
digest bytes below 256 and a common digest length render to the same
manifest byte stream only if they are equal. -/
theorem manifestListInj (hashLen : Nat) :
    ∀ (l1 l2 : List (String × List Nat)),
    (∀ pd ∈ l1, pd.2.length = hashLen ∧ (∀ b ∈ pd.2, b < 256) ∧
      ∀ c ∈ pd.1.data, c ≠ '\n') →
    (∀ pd ∈ l2, pd.2.length = hashLen ∧ (∀ b ∈ pd.2, b < 256) ∧
      ∀ c ∈ pd.1.data, c ≠ '\n') →
    l1.flatMap (fun pd => utf8Bytes (bytesToHex pd.2 ++ "  " ++ pd.1 ++ "\n")) =
      l2.flatMap (fun pd => utf8Bytes (bytesToHex pd.2 ++ "  " ++ pd.1 ++ "\n")) →
    l1 = l2 := by
  intro l1
  induction l1 with
  | nil =>
    intro l2 _ hh2 he
    cases l2 with
    | nil => rfl
    | cons pd2 rest2 =>
      exfalso
      rcases hh2 pd2 (by simp) with ⟨hlen, hby, hnl⟩
      simp only [List.flatMap_nil, List.flatMap_cons] at he
      rw [utf8_line_decomp pd2.2 pd2.1 hby] at he
      have := congrArg List.length he
      simp at this
      omega
  | cons pd1 rest1 ih =>
    intro l2 hh1 hh2 he
    cases l2 with
    | nil =>
      exfalso
      rcases hh1 pd1 (by simp) with ⟨hlen, hby, hnl⟩
      simp only [List.flatMap_nil, List.flatMap_cons] at he
      rw [utf8_line_decomp pd1.2 pd1.1 hby] at he
      have := congrArg List.length he
      simp at this
    | cons pd2 rest2 =>
      rcases hh1 pd1 (by simp) with ⟨hlen1, hby1, hnl1⟩
      rcases hh2 pd2 (by simp) with ⟨hlen2, hby2, hnl2⟩
      simp only [List.flatMap_cons] at he
      rw [utf8_line_decomp pd1.2 pd1.1 hby1, utf8_line_decomp pd2.2 pd2.1 hby2] at he
      rw [List.append_assoc, List.append_assoc] at he
      have hsplit1 := List.append_inj he (by
        rw [length_flatMap_hexPairEnc, length_flatMap_hexPairEnc, hlen1, hlen2])
      have hdig : pd1.2 = pd2.2 := flatMap_hexPairEnc_inj hby1 hby2 hsplit1.1
      have htail := hsplit1.2
      simp only [List.cons_append, List.cons.injEq, true_and] at htail
      rw [List.append_assoc, List.append_assoc] at htail
      have hpaths := append_cons_inj (x := 10)
        (utf8Bytes_no_newline hnl1) (utf8Bytes_no_newline hnl2) htail
      have hp : pd1.1 = pd2.1 := utf8Bytes_inj hpaths.1
      have hrest : rest1 = rest2 := by
        refine ih rest2 (fun pd hpd => hh1 pd (by simp [hpd]))
          (fun pd hpd => hh2 pd (by simp [hpd])) hpaths.2
      cases pd1 with
      | mk p1 d1 =>
        cases pd2 with
        | mk p2 d2 =>
          simp only at hp hdig
          rw [hp, hdig, hrest]

/-! Helper lemmas for the semantic-version model and the digest closed
form. -/

theorem semverLtModel_asymm (a b : String) (h : semverLtModel a b = true) :
    semverLtModel b a = false := by
  unfold semverLtModel at h ⊢
  simp only [decide_eq_true_eq] at h
  simp only [decide_eq_false_iff_not]
  exact lt_asymm h

theorem semverLtModel_negtrans (a b c : String) (h1 : semverLtModel a b = false)
    (h2 : semverLtModel b c = false) : semverLtModel a c = false := by
  unfold semverLtModel at h1 h2 ⊢
  simp only [decide_eq_false_iff_not, not_lt] at h1 h2 ⊢
  exact le_trans h2 h1

theorem hexChar_mem_lowercase (k : Nat) (h : k < 16) :
    hexChar k ∈ ("0123456789abcdef").data := by
  interval_cases k <;> decide

theorem treeHash_eq_algo_manifest (algo : Algo) (fs : String → List Nat)
    (stdout : String) :
    treeHash algo fs stdout = algo (manifestBytes algo fs stdout) := by
  unfold treeHash HashCtx.digest manifestBytes
  rw [treeHashLoop_fed]
  rfl

theorem manifestBytes_eq_pairs (algo : Algo) (fs : String → List Nat)
    (stdout : String) :
    manifestBytes algo fs stdout
      = ((listTree stdout).map (fun p => (p, checksum algo (fs p)))).flatMap
          (fun pd => utf8Bytes (bytesToHex pd.2 ++ "  " ++ pd.1 ++ "\n")) := by
  unfold manifestBytes manifestLine
  rw [List.flatMap_map]

/-! ### The claims -/

/-- C1: for every sequence of tag names and every constraint, `matchTag`
returns the highest-precedence tag under the descending default sort —
a candidate that satisfies the constraint after its leading `'v'` is
stripped, with no satisfying candidate strictly above it — and `null`
when no candidate satisfies the constraint; in particular, for the tags
v1.0.0, v1.2.0 and v2.0.0-rc with constraint ^1.0.0 the result is
v1.2.0.  The injected comparison is only assumed asymmetric and
negatively transitive, as any precedence order is. -/
theorem matchTag_selects_highest :
    (∀ (gt lt satisfies : String → String → Bool) (tags : List String) (needed : String),
      (∀ a b, lt a b = true → lt b a = false) →
      (∀ a b c, lt a b = false → lt b c = false → lt a c = false) →
      ((matchTag gt lt satisfies tags needed = none ↔
          ∀ t ∈ tags, jsStartsWith t "v" = true →
            satisfies (jsReplaceFirst t "v" "") needed = false) ∧
        ∀ t, matchTag gt lt satisfies tags needed = some t →
          t ∈ tags ∧ jsStartsWith t "v" = true ∧
          satisfies (jsReplaceFirst t "v" "") needed = true ∧
          ∀ u ∈ tags, jsStartsWith u "v" = true →
            satisfies (jsReplaceFirst u "v" "") needed = true → lt t u = false)) ∧
    matchTag semverGtModel semverLtModel caretSatisfies
      ["v1.0.0", "v1.2.0", "v2.0.0-rc"] "^1.0.0" = some "v1.2.0" := by
  constructor
  · intro gt lt satisfies tags needed hA hN
    have hperm : (sortTags gt lt tags false).Perm
        (tags.filter (fun t => jsStartsWith t "v")) := sortTags_perm gt lt tags false
    have hmem : ∀ x, x ∈ sortTags gt lt tags false ↔
        (x ∈ tags ∧ jsStartsWith x "v" = true) := by
      intro x
      rw [hperm.mem_iff, List.mem_filter]
    have hpair : (sortTags gt lt tags false).Pairwise
        (fun a b => a = b ∨ lt a b = false) :=
      insertionSort_pairwise lt hA hN _
    constructor
    · rw [show matchTag gt lt satisfies tags needed
          = (sortTags gt lt tags false).find?
              (fun tag => satisfies (jsReplaceFirst tag "v" "") needed) from rfl]
      rw [List.find?_eq_none]
      constructor
      · intro hall t ht hst
        have := hall t ((hmem t).mpr ⟨ht, hst⟩)
        simpa using this
      · intro hall x hx
        rcases (hmem x).mp hx with ⟨hx1, hx2⟩
        simp [hall x hx1 hx2]
    · intro t ht
      have hfind : (sortTags gt lt tags false).find?
          (fun tag => satisfies (jsReplaceFirst tag "v" "") needed) = some t := ht
      have hsat := List.find?_some hfind
      have htmem := List.mem_of_find?_eq_some hfind
      rcases (hmem t).mp htmem with ⟨ht1, ht2⟩
      refine ⟨ht1, ht2, hsat, ?_⟩
      intro u hu hust husat
      have humem : u ∈ sortTags gt lt tags false := (hmem u).mpr ⟨hu, hust⟩
      have := find?_first hfind _ hpair u humem husat
      rcases this with rfl | h2
      · exact cmp_irrefl lt hA t
      · rcases h2 with rfl | h3
        · exact cmp_irrefl lt hA t
        · exact h3
  · decide

/-- Witness for C1: instantiating the abstract comparison with the
concrete semantic-version model on the single tag v3.0.0 and the
constraint ^1.0.0, the null result propagates to the candidate. -/
theorem matchTag_selects_highest_witness :
    caretSatisfies (jsReplaceFirst "v3.0.0" "v" "") "^1.0.0" = false :=
  (matchTag_selects_highest.1 semverGtModel semverLtModel caretSatisfies
    ["v3.0.0"] "^1.0.0" semverLtModel_asymm semverLtModel_negtrans).1.mp
    (by decide) "v3.0.0" (by decide) (by decide)

/-- C2 counterexample: on a process-spawn error, `verifyRepo` rejects
with the spawn error itself — not with the uniform verification error
claimed (under either message spelling). -/
theorem verifyRepo_spawnError_counterexample :
    verifyRepo (some "v1.0.0") "0123abc" (.spawnError "spawn git ENOENT") =
      .error "spawn git ENOENT" ∧
    verifyRepo (some "v1.0.0") "0123abc" (.spawnError "spawn git ENOENT") ≠
      .error "Could not verify signature" ∧
    verifyRepo (some "v1.0.0") "0123abc" (.spawnError "spawn git ENOENT") ≠
      .error "Could not verify signature." := by
  refine ⟨rfl, by decide, by decide⟩

/-- C2 (amended): `verifyRepo` succeeds exactly when the subprocess
closes with exit status 0; every non-zero exit status yields the error
with message "Could not verify signature." (trailing period); a
process-spawn error is rejected with the underlying spawn error itself,
not with that uniform error. -/
theorem verifyRepo_amended (tag : Option String) (commit : String) :
    (∀ outcome, verifyRepo tag commit outcome = .ok () ↔ outcome = .close 0) ∧
    (∀ code, code ≠ 0 → verifyRepo tag commit (.close code) =
      .error "Could not verify signature.") ∧
    (∀ err, verifyRepo tag commit (.spawnError err) = .error err) := by
  refine ⟨?_, ?_, ?_⟩
  · intro outcome
    cases outcome with
    | spawnError e => simp [verifyRepo]
    | close code =>
      by_cases h : code = 0
      · subst h
        simp [verifyRepo]
      · simp [verifyRepo, h]
  · intro code h
    simp [verifyRepo, h]
  · intro err
    rfl

/-- Witness for C2: exit status 128 produces the uniform error. -/
theorem verifyRepo_amended_witness :
    verifyRepo none "abc0123" (.close 128) = .error "Could not verify signature." :=
  (verifyRepo_amended none "abc0123").2.1 128 (by decide)

/-- C3: `treeHash` feeds, for each file in the order produced by
`listTree`, exactly the bytes of the textual line
"<hex-digest>  <relative-path>\n" — the content digest in lowercase
hexadecimal with no separators, two spaces, the relative path, one
newline — into one running context, and the returned tree hash is the
final digest of that context: the algorithm applied to the
concatenation of those lines. -/
theorem treeHash_manifest (algo : Algo) (fs : String → List Nat) (stdout : String) :
    treeHash algo fs stdout = algo (manifestBytes algo fs stdout) ∧
    manifestBytes algo fs stdout = (listTree stdout).flatMap
      (fun f => utf8Bytes (bytesToHex (checksum algo (fs f)) ++ "  " ++ f ++ "\n")) ∧
    (∀ bs, (∀ b ∈ bs, b < 256) →
      ∀ c ∈ (bytesToHex bs).data, c ∈ ("0123456789abcdef").data) := by
  refine ⟨treeHash_eq_algo_manifest algo fs stdout, rfl, ?_⟩
  intro bs hbs c hc
  unfold bytesToHex at hc
  simp only at hc
  rcases List.mem_flatMap.mp hc with ⟨b, hb, hcin⟩
  have hblt : b < 256 := hbs b hb
  simp only [List.mem_cons, List.mem_singleton] at hcin
  rcases hcin with rfl | rfl | hfalse
  · exact hexChar_mem_lowercase _ (by omega)
  · exact hexChar_mem_lowercase _ (by omega)
  · cases hfalse

/-- Witness for C3: the closed form and the lowercase rendering on a
concrete one-file checkout and the toy algorithm. -/
theorem treeHash_manifest_witness :
    treeHash sumAlgo fileZero "a" = sumAlgo (manifestBytes sumAlgo fileZero "a") ∧
    ∀ c ∈ (bytesToHex [0]).data, c ∈ ("0123456789abcdef").data :=
  ⟨(treeHash_manifest sumAlgo fileZero "a").1,
   (treeHash_manifest sumAlgo fileZero "a").2.2 [0] (by decide)⟩

/-- C4: the tree hash does not depend on the enumeration order of the
tracked-file subprocess (any permutation of the raw listing lines gives
the identical digest, because `listTree` sorts), and — as long as the
algorithm's digests have a fixed length, digest bytes are bytes, and the
algorithm does not collide on the two manifests — any change to the
canonical (path, content-digest) data (changing, adding, removing or
renaming a file) changes the digest.  Determinism itself is definitional
in this pure embedding. -/
theorem treeHash_reproducible :
    (∀ (algo : Algo) (fs : String → List Nat) (s1 s2 : String),
      (jsSplit (jsTrim s1) '\n').Perm (jsSplit (jsTrim s2) '\n') →
      treeHash algo fs s1 = treeHash algo fs s2) ∧
    (∀ (algo : Algo) (hashLen : Nat) (fs1 fs2 : String → List Nat) (s1 s2 : String),
      (∀ content, (algo content).length = hashLen) →
      (∀ content b, b ∈ algo content → b < 256) →
      (algo (manifestBytes algo fs1 s1) = algo (manifestBytes algo fs2 s2) →
        manifestBytes algo fs1 s1 = manifestBytes algo fs2 s2) →
      (listTree s1).map (fun p => (p, checksum algo (fs1 p))) ≠
        (listTree s2).map (fun p => (p, checksum algo (fs2 p))) →
      treeHash algo fs1 s1 ≠ treeHash algo fs2 s2) := by
  constructor
  · intro algo fs s1 s2 h
    unfold treeHash
    rw [listTree_perm_eq h]
  · intro algo hashLen fs1 fs2 s1 s2 hLen hByte hColl hDiff heq
    apply hDiff
    rw [treeHash_eq_algo_manifest, treeHash_eq_algo_manifest] at heq
    have hm := hColl heq
    rw [manifestBytes_eq_pairs, manifestBytes_eq_pairs] at hm
    refine manifestListInj hashLen _ _ ?_ ?_ hm
    · intro pd hpd
      rcases List.mem_map.mp hpd with ⟨p, hp, hmk⟩
      subst hmk
      exact ⟨hLen (fs1 p), fun b hb => hByte (fs1 p) b hb,
        listTree_no_newline s1 p hp⟩
    · intro pd hpd
      rcases List.mem_map.mp hpd with ⟨p, hp, hmk⟩
      subst hmk
      exact ⟨hLen (fs2 p), fun b hb => hByte (fs2 p) b hb,
        listTree_no_newline s2 p hp⟩

/-- Witness for C4: order independence on a two-file listing given in
the two possible orders, and sensitivity to a one-byte content change
under the toy algorithm. -/
theorem treeHash_reproducible_witness :
    treeHash sumAlgo fileZero "b\na" = treeHash sumAlgo fileZero "a\nb" ∧
    treeHash sumAlgo fileZero "a" ≠ treeHash sumAlgo fileOne "a" := by
  constructor
  · exact treeHash_reproducible.1 sumAlgo fileZero "b\na" "a\nb" (by decide)
  · refine treeHash_reproducible.2 sumAlgo 1 fileZero fileOne "a" "a"
      (fun content => rfl) ?_ (fun h => absurd h (by decide)) (by decide)
    intro content b hb
    simp only [sumAlgo, List.mem_singleton] at hb
    subst hb
    exact Nat.mod_lt _ (by omega)

/-- C5: `listTags` fails — with the thrown error, and hence with no
partial result — exactly when some line of the trimmed, newline-split
remote listing does not match the pattern hex-hash, tab, refs/tags/,
name; a malformed line is never silently skipped. -/
theorem listTags_malformed_fatal (stdout : String) :
    listTags stdout = .error .typeError ↔
      ∃ item ∈ jsSplit (jsTrim stdout) '\n',
        matchRefLine "refs/tags/" item = none := by
  unfold listTags
  exact listTagsAux_error_iff _ []

/-- Witness for C5: a ref line with a non-hexadecimal hash is fatal. -/
theorem listTags_malformed_fatal_witness :
    listTags "zzzz\trefs/tags/v1.0.0" = .error .typeError :=
  (listTags_malformed_fatal "zzzz\trefs/tags/v1.0.0").mpr
    ⟨"zzzz\trefs/tags/v1.0.0", by decide, by decide⟩

/-- C6: `sortTags` returns exactly the input names beginning with the
literal prefix v (anything else is silently dropped), ordered by the
injected version precedence: with the flag unset (the default) no later
element is strictly above an earlier one (descending), with the flag set
no later element is strictly below an earlier one (ascending). -/
theorem sortTags_spec (gt lt : String → String → Bool) (tags : List String) (desc : Bool)
    (hGL : ∀ a b, gt a b = lt b a)
    (hA : ∀ a b, lt a b = true → lt b a = false)
    (hN : ∀ a b c, lt a b = false → lt b c = false → lt a c = false) :
    (sortTags gt lt tags desc).Perm (tags.filter (fun t => jsStartsWith t "v")) ∧
    (desc = false →
      (sortTags gt lt tags desc).Pairwise (fun a b => a = b ∨ lt a b = false)) ∧
    (desc = true →
      (sortTags gt lt tags desc).Pairwise (fun a b => a = b ∨ lt b a = false)) := by
  refine ⟨sortTags_perm gt lt tags desc, ?_, ?_⟩
  · rintro rfl
    exact insertionSort_pairwise lt hA hN _
  · rintro rfl
    have hA2 : ∀ a b, gt a b = true → gt b a = false := by
      intro a b h
      rw [hGL] at h ⊢
      exact hA b a h
    have hN2 : ∀ a b c, gt a b = false → gt b c = false → gt a c = false := by
      intro a b c h1 h2
      rw [hGL] at h1 h2 ⊢
      exact hN c b a h2 h1
    have hp := insertionSort_pairwise gt hA2 hN2
      (tags.filter (fun t => jsStartsWith t "v"))
    refine List.Pairwise.imp ?_ hp
    intro a b hab
    rcases hab with h | h
    · exact Or.inl h
    · exact Or.inr (by rw [← hGL]; exact h)

/-- Witness for C6: the semantic-version model on a list containing a
non-v name, which is dropped. -/
theorem sortTags_spec_witness :
    (sortTags semverGtModel semverLtModel ["v1.0.0", "x2.0.0", "v1.2.0"] false).Perm
      (["v1.0.0", "x2.0.0", "v1.2.0"].filter (fun t => jsStartsWith t "v")) :=
  (sortTags_spec semverGtModel semverLtModel ["v1.0.0", "x2.0.0", "v1.2.0"] false
    (fun a b => rfl) semverLtModel_asymm semverLtModel_negtrans).1

/-- C7: the comparator of the descending (default) branch maps a pair of
identical strings to 0, and any pair of distinct names that is not
strictly less-than — equality of versions included — to -1, i.e.
"before"; on distinct equal-version names it answers "before" in both
orders, so the relative order of equal-version tags is not specified. -/
theorem tagComparator_desc (lt : String → String → Bool) (a b : String) :
    tagComparator lt a a = 0 ∧
    (a ≠ b → lt a b = false → tagComparator lt a b = -1) ∧
    (a ≠ b → lt a b = false → lt b a = false →
      tagComparator lt a b = -1 ∧ tagComparator lt b a = -1) := by
  refine ⟨by simp [tagComparator], ?_, ?_⟩
  · intro hne hf
    simp [tagComparator, hne, hf]
  · intro hne hf hg
    constructor
    · simp [tagComparator, hne, hf]
    · simp [tagComparator, Ne.symm hne, hg]

/-- Witness for C7: v1.0.0 and v01.0.0 are distinct names with equal
precedence under the semantic-version model, and the comparator says
"before" in both orders. -/
theorem tagComparator_desc_witness :
    tagComparator semverLtModel "v1.0.0" "v01.0.0" = -1 ∧
    tagComparator semverLtModel "v01.0.0" "v1.0.0" = -1 :=
  (tagComparator_desc semverLtModel "v1.0.0" "v01.0.0").2.2
    (by decide) (by decide) (by decide)

/-- C8: `listTags` maintains at most one record per tag name — the keys
of any successfully parsed map are pairwise distinct — and on a listing
carrying both the plain and the dereferenced form of v1.0.0 with
different hashes, the single resulting record holds both hashes. -/
theorem listTags_merges_records :
    listTags "aaaa\trefs/tags/v1.0.0\nbbbb\trefs/tags/v1.0.0^\x7b\x7d" =
      .ok [("v1.0.0",
        { commit := some "aaaa", annotated := some "bbbb", name := "v1.0.0" })] ∧
    (∀ stdout m, listTags stdout = .ok m → (m.map Prod.fst).Nodup) := by
  refine ⟨by decide, ?_⟩
  intro stdout m hok
  exact listTagsAux_keys _ [] m (by simp) hok

/-- Witness for C8: the uniqueness invariant evaluated on the concrete
merged listing. -/
theorem listTags_merges_records_witness :
    (([("v1.0.0", (⟨some "aaaa", some "bbbb", "v1.0.0"⟩ : TagRecord))]).map
      Prod.fst).Nodup :=
  listTags_merges_records.2
    "aaaa\trefs/tags/v1.0.0\nbbbb\trefs/tags/v1.0.0^\x7b\x7d" _
    listTags_merges_records.1

/-- C9 (spec-modelled): invoked on a destination that exists and is
non-empty, `cloneRepo` fails with the subprocess failure surfaced
verbatim — an error carrying the tool's non-zero exit status and its
captured error stream — and the destination contents are unchanged. -/
theorem cloneRepo_nonempty_dest (exec : Exec) (tag git dst : String)
    (files : List String) (hspec : GitCloneSpec exec) (hne : files ≠ []) :
    ∃ code stderr, code ≠ 0 ∧
      cloneRepo exec tag git dst (some files) =
        (some files, .error ⟨code, stderr⟩) := by
  unfold cloneRepo
  exact hspec (cloneCmd tag git dst) files hne

/-- Witness for C9: the refusing `exec` model on a destination holding
one file. -/
theorem cloneRepo_nonempty_dest_witness :
    ∃ code stderr, code ≠ 0 ∧
      cloneRepo execDenyModel "v1.0.0" "https://example.org/repo.git" "pkg"
        (some ["README.md"]) = (some ["README.md"], .error ⟨code, stderr⟩) :=
  cloneRepo_nonempty_dest execDenyModel "v1.0.0" "https://example.org/repo.git" "pkg"
    ["README.md"]
    (by
      intro cmd files hne
      cases files with
      | nil => exact absurd rfl hne
      | cons f fs =>
        exact ⟨128,
          "fatal: destination path already exists and is not an empty directory.",
          by decide, rfl⟩)
    (by simp)

/-- C10: when the tracked-file enumeration subprocess succeeds with
empty standard output, `listTree` resolves with the one-element list
holding the empty string — not with the empty list. -/
theorem listTree_empty_output (stdout : String) (h : jsTrim stdout = "") :
    listTree stdout = [""] ∧ listTree stdout ≠ [] := by
  unfold listTree
  rw [h]
  exact ⟨by decide, by decide⟩

/-- Witness for C10: the empty stdout. -/
theorem listTree_empty_output_witness : listTree "" = [""] ∧ listTree "" ≠ [] :=
  listTree_empty_output "" (by decide)

end Gpm
